import Mathlib

/-!
Verification of the position-aware YAML intelligence engine embedded in
`src/format/html/format-html-notebook-preview.ts` (the bundled editor-tools
script: validator queue, tree-sitter annotation builder, error-tolerant
reparse search, cursor locators, schema navigator and completion generator).

Conventions of the shallow embedding:
* A document text is represented by its list of lines (`List String`).
  The external core-library helpers `rangedLines`, `lines` and `mappedString`
  are not part of the given sources; per the specification a mapped text is a
  string with an offset mapping, built from `[start,end)` fragments, and the
  reparse search only ever splices whole untouched lines around the cursor's
  line, which the line-list representation captures directly.
* `mapClosest` is modelled as the identity on offsets (original locations are
  offsets into the current text); the original-source mapping is outside the
  claims under verification.
* The external tree-sitter parser is a parameter `parse : List String → TSNode`;
  the root of the returned tree carries its node type, and a root of type
  "ERROR" marks a failed parse, exactly as the source tests
  `tree.rootNode.type !== "ERROR"`.
* JavaScript exceptions are modelled with `Except String`; the thrown message
  mirrors the source's message.
-/

namespace YamlIntel

/-- Concrete-syntax-tree node handed over by the external tree-sitter parser:
a type tag, the covered raw text, start/end offsets, and the child nodes. -/
inductive TSNode where
  | mk (type : String) (text : String) (startIndex endIndex : Nat)
      (children : List TSNode)

def TSNode.type : TSNode → String
  | .mk t _ _ _ _ => t

def TSNode.text : TSNode → String
  | .mk _ x _ _ _ => x

def TSNode.startIndex : TSNode → Nat
  | .mk _ _ s _ _ => s

def TSNode.endIndex : TSNode → Nat
  | .mk _ _ _ e _ => e

def TSNode.children : TSNode → List TSNode
  | .mk _ _ _ _ cs => cs

/-- One candidate produced by the reparse search `attemptParsesAtLine`:
the parsed tree, the candidate text, and how many characters were deleted
from the cursor's line.  Mirrors the yielded `{parse, code, deletions}`. -/
structure ReparseCandidate where
  parse : TSNode
  code : List String
  deletions : Nat

/-- `codeLines[row].substring` of the source; rows are indices into the
line list. -/
def lineAt (code : List String) (row : Nat) : String :=
  code.getD row ""

/-- The document obtained by splicing the untouched lines before and after
the cursor's row around a truncated current line, as `attemptParsesAtLine`
reconstructs it from `[start,end)` chunks of the original mapped text. -/
def spliceLine (code : List String) (row : Nat) (prefixLine : String) :
    List String :=
  code.take row ++ [prefixLine] ++ code.drop (row + 1)

/-- The `while (currentColumn > 0)` loop of `attemptParsesAtLine`: shrink the
cursor's line one character at a time, reparse the spliced document, and
yield every candidate whose parse is clean.  Structural recursion on the
remaining column count; `dels` is the number of deletions so far. -/
def reparseLoop (parse : List String → TSNode) (code : List String)
    (row : Nat) (currentLine : String) : Nat → Nat → List ReparseCandidate
  | 0, _ => []
  | cc + 1, dels =>
    let newCode := spliceLine code row (currentLine.take cc)
    let tree2 := parse newCode
    (if tree2.type ≠ "ERROR" then [⟨tree2, newCode, dels + 1⟩] else []) ++
      reparseLoop parse code row currentLine cc (dels + 1)

/-- `attemptParsesAtLine`: first parse the untouched text and yield it with
`deletions = 0` when clean, then run the truncation loop from the cursor's
column.  The generator's full (finite) yield sequence, in order. -/
def attemptParsesAtLine (parse : List String → TSNode) (code : List String)
    (row col : Nat) : List ReparseCandidate :=
  let tree := parse code
  (if tree.type ≠ "ERROR" then [⟨tree, code, 0⟩] else []) ++
    reparseLoop parse code row (lineAt code row) col 0

/-- The texts the truncation loop hands to the parser, in order: one per
loop iteration. -/
def reparseLoopTexts (code : List String) (row : Nat) (currentLine : String) :
    Nat → List (List String)
  | 0 => []
  | cc + 1 => spliceLine code row (currentLine.take cc) ::
      reparseLoopTexts code row currentLine cc

/-- Every text `attemptParsesAtLine` hands to the parser, in order: the
untouched text first, then one spliced text per loop iteration; its length
is the number of parse attempts of one search. -/
def attemptParseTexts (code : List String) (row col : Nat) :
    List (List String) :=
  code :: reparseLoopTexts code row (lineAt code row) col

theorem reparseLoopTexts_length (code : List String) (row : Nat)
    (currentLine : String) (cc : Nat) :
    (reparseLoopTexts code row currentLine cc).length = cc := by
  induction cc with
  | zero => rfl
  | succ n ih => simp [reparseLoopTexts, ih]

theorem reparseLoop_deletions_bounds (parse : List String → TSNode)
    (code : List String) (row : Nat) (currentLine : String) (cc dels : Nat) :
    ∀ c ∈ reparseLoop parse code row currentLine cc dels,
      dels + 1 ≤ c.deletions ∧ c.deletions ≤ dels + cc := by
  induction cc generalizing dels with
  | zero => intro c hc; simp [reparseLoop] at hc
  | succ n ih =>
    intro c hc
    simp only [reparseLoop, List.mem_append] at hc
    rcases hc with hc | hc
    · split at hc
      · simp at hc; subst hc
        exact ⟨Nat.le_refl _, Nat.add_le_add_left (Nat.succ_le_succ
          (Nat.zero_le n)) dels⟩
      · simp at hc
    · have := ih (dels + 1) c hc
      omega

theorem reparseLoop_length_le (parse : List String → TSNode)
    (code : List String) (row : Nat) (currentLine : String) (cc dels : Nat) :
    (reparseLoop parse code row currentLine cc dels).length ≤ cc := by
  induction cc generalizing dels with
  | zero => simp [reparseLoop]
  | succ n ih =>
    simp only [reparseLoop, List.length_append]
    have := ih (dels + 1)
    split <;> simp <;> omega

theorem reparseLoop_chain (parse : List String → TSNode)
    (code : List String) (row : Nat) (currentLine : String) (cc dels : Nat) :
    List.Chain' (fun a b : ReparseCandidate => a.deletions < b.deletions)
      (reparseLoop parse code row currentLine cc dels) := by
  induction cc generalizing dels with
  | zero => simp [reparseLoop]
  | succ n ih =>
    simp only [reparseLoop]
    split
    · refine List.chain'_cons'.mpr ⟨?_, ih (dels + 1)⟩
      intro b hb
      have hb' := List.mem_of_mem_head? hb
      have := reparseLoop_deletions_bounds parse code row currentLine n
        (dels + 1) b hb'
      simp only []
      omega
    · simp only [List.nil_append]
      exact ih (dels + 1)

theorem reparseLoop_code_mem (parse : List String → TSNode)
    (code : List String) (row : Nat) (currentLine : String) (cc dels : Nat) :
    ∀ c ∈ reparseLoop parse code row currentLine cc dels,
      c.code ∈ reparseLoopTexts code row currentLine cc := by
  induction cc generalizing dels with
  | zero => intro c hc; simp [reparseLoop] at hc
  | succ n ih =>
    intro c hc
    simp only [reparseLoop, List.mem_append] at hc
    simp only [reparseLoopTexts, List.mem_cons]
    rcases hc with hc | hc
    · split at hc
      · simp at hc; subst hc; left; rfl
      · simp at hc
    · exact Or.inr (ih (dels + 1) c hc)

theorem reparseLoop_prefix_shape (parse : List String → TSNode)
    (code : List String) (row : Nat) (currentLine : String) (cc dels : Nat) :
    ∀ c ∈ reparseLoop parse code row currentLine cc dels,
      ∃ k, c.code = spliceLine code row (currentLine.take k) := by
  induction cc generalizing dels with
  | zero => intro c hc; simp [reparseLoop] at hc
  | succ n ih =>
    intro c hc
    simp only [reparseLoop, List.mem_append] at hc
    rcases hc with hc | hc
    · split at hc
      · simp at hc; subst hc; exact ⟨n, rfl⟩
      · simp at hc
    · exact ih (dels + 1) c hc

theorem spliceLine_facts (code : List String) (row : Nat) (p : String)
    (hrow : row < code.length) :
    (spliceLine code row p).length = code.length ∧
      (∀ i, i ≠ row → (spliceLine code row p)[i]? = code[i]?) ∧
      (spliceLine code row p)[row]? = some p := by
  induction row generalizing code with
  | zero =>
    cases code with
    | nil => simp at hrow
    | cons c cs =>
      refine ⟨by simp [spliceLine], ?_, by simp [spliceLine]⟩
      intro i hi
      cases i with
      | zero => exact absurd rfl hi
      | succ j => simp [spliceLine]
  | succ r ih =>
    cases code with
    | nil => simp at hrow
    | cons c cs =>
      have hr : r < cs.length := by simpa using hrow
      have hsplice : spliceLine (c :: cs) (r + 1) p = c :: spliceLine cs r p := by
        simp [spliceLine]
      obtain ⟨hlen, hne, hrow'⟩ := ih cs hr
      refine ⟨by simp [hsplice, hlen], ?_, by simp [hsplice, hrow']⟩
      intro i hi
      cases i with
      | zero => simp [hsplice]
      | succ j =>
        have : j ≠ r := by omega
        simp [hsplice, hne j this]

/-- claim C5 (confirmed).  For every parser behaviour, document and in-range
cursor `(row, column)`: the reparse search performs exactly `column + 1`
parse attempts (the untouched text plus one truncation per column step, as
enumerated by `attemptParseTexts`) and every yielded candidate's text is one
of those attempts; at most `column + 1` candidates are yielded; every yielded
candidate has `deletions ≤ column`; candidates appear in strictly increasing
order of `deletions` (most faithful first); and each candidate's text agrees
with the original on every line other than the cursor's line, where it holds
a prefix of the original line. -/
theorem attemptParsesAtLine_bounds (parse : List String → TSNode)
    (code : List String) (row col : Nat) (hrow : row < code.length) :
    (attemptParseTexts code row col).length = col + 1 ∧
    (∀ c ∈ attemptParsesAtLine parse code row col,
        c.code ∈ attemptParseTexts code row col) ∧
    (attemptParsesAtLine parse code row col).length ≤ col + 1 ∧
    (∀ c ∈ attemptParsesAtLine parse code row col, c.deletions ≤ col) ∧
    List.Chain' (fun a b : ReparseCandidate => a.deletions < b.deletions)
      (attemptParsesAtLine parse code row col) ∧
    (∀ c ∈ attemptParsesAtLine parse code row col,
        c.code.length = code.length ∧
        (∀ i, i ≠ row → c.code[i]? = code[i]?) ∧
        (∃ k, c.code[row]? = some ((lineAt code row).take k))) := by
  constructor
  · simp [attemptParseTexts, reparseLoopTexts_length]
  constructor
  · intro c hc
    simp only [attemptParsesAtLine, List.mem_append] at hc
    simp only [attemptParseTexts, List.mem_cons]
    rcases hc with hc | hc
    · split at hc
      · simp at hc; subst hc; left; rfl
      · simp at hc
    · exact Or.inr (reparseLoop_code_mem parse code row (lineAt code row)
        col 0 c hc)
  constructor
  · simp only [attemptParsesAtLine, List.length_append]
    have := reparseLoop_length_le parse code row (lineAt code row) col 0
    split <;> simp <;> omega
  constructor
  · intro c hc
    simp only [attemptParsesAtLine, List.mem_append] at hc
    rcases hc with hc | hc
    · split at hc
      · simp at hc; subst hc; simp
      · simp at hc
    · have := reparseLoop_deletions_bounds parse code row (lineAt code row)
        col 0 c hc
      omega
  constructor
  · simp only [attemptParsesAtLine]
    split
    · refine List.chain'_cons'.mpr ⟨?_, reparseLoop_chain parse code row
        (lineAt code row) col 0⟩
      intro b hb
      have hb' := List.mem_of_mem_head? hb
      have := reparseLoop_deletions_bounds parse code row (lineAt code row)
        col 0 b hb'
      simp only []
      omega
    · simp only [List.nil_append]
      exact reparseLoop_chain parse code row (lineAt code row) col 0
  · intro c hc
    simp only [attemptParsesAtLine, List.mem_append] at hc
    rcases hc with hc | hc
    · split at hc
      · simp at hc; subst hc
        refine ⟨rfl, fun i _ => rfl, ⟨(lineAt code row).length, ?_⟩⟩
        have hself : (lineAt code row).take (lineAt code row).length
            = lineAt code row := by
          apply String.ext
          rw [String.take_eq]
          exact List.take_length _
        rw [hself]
        cases h : code[row]? with
        | none =>
          have := List.getElem?_eq_none_iff.mp h
          omega
        | some x =>
          simp [lineAt, List.getD_eq_getElem?_getD, h]
      · simp at hc
    · obtain ⟨k, hk⟩ := reparseLoop_prefix_shape parse code row
        (lineAt code row) col 0 c hc
      obtain ⟨hlen, hne, hrowline⟩ := spliceLine_facts code row
        ((lineAt code row).take k) hrow
      rw [hk]
      exact ⟨hlen, hne, ⟨k, hrowline⟩⟩

/-- A parser behaviour under which every text parses cleanly (the root node
is a plain "stream", never "ERROR"); tree-sitter is an external black box,
so any such behaviour is admissible. -/
def constParser : List String → TSNode :=
  fun _ => .mk "stream" "" 0 0 []

/-- claim C1 (counterexample).  The document "a: b" parses cleanly untouched,
yet with the cursor at column 4 the reparse search yields five candidates,
with deletions 0 through 4: after yielding the clean untouched parse the
generator does not stop, and candidates with `deletions > 0` are yielded. -/
theorem attemptParsesAtLine_clean_does_not_stop :
    (constParser ["a: b"]).type ≠ "ERROR" ∧
      (attemptParsesAtLine constParser ["a: b"] 0 4).map
        (fun c => c.deletions) = [0, 1, 2, 3, 4] := by
  constructor
  · decide
  · rfl

/-- claim C1 (amended).  For every document whose untouched text parses
cleanly, the reparse search yields the untouched parse first, with
`deletions = 0`, and that is the only candidate with `deletions = 0`; but
the search does not stop there: every further yielded candidate (there may
be some, unless the cursor column is 0) has `deletions > 0`. -/
theorem attemptParsesAtLine_clean_first (parse : List String → TSNode)
    (code : List String) (row col : Nat)
    (h : (parse code).type ≠ "ERROR") :
    (attemptParsesAtLine parse code row col).head? =
        some ⟨parse code, code, 0⟩ ∧
      (∀ c ∈ (attemptParsesAtLine parse code row col).tail,
        0 < c.deletions) ∧
      (attemptParsesAtLine parse code row col).countP
        (fun c => c.deletions == 0) = 1 := by
  have hunfold : attemptParsesAtLine parse code row col =
      ⟨parse code, code, 0⟩ ::
        reparseLoop parse code row (lineAt code row) col 0 := by
    simp [attemptParsesAtLine, h]
  refine ⟨by rw [hunfold]; rfl, ?_, ?_⟩
  · rw [hunfold]
    intro c hc
    have := reparseLoop_deletions_bounds parse code row (lineAt code row)
      col 0 c hc
    omega
  · rw [hunfold, List.countP_cons]
    have hzero : (reparseLoop parse code row (lineAt code row) col 0).countP
        (fun c => c.deletions == 0) = 0 := by
      apply List.countP_eq_zero.mpr
      intro c hc
      have := reparseLoop_deletions_bounds parse code row (lineAt code row)
        col 0 c hc
      simp only [beq_iff_eq]
      omega
    simp [hzero]

/-- Witness for `attemptParsesAtLine_clean_first` at a concrete input. -/
theorem attemptParsesAtLine_clean_first_witness :
    (attemptParsesAtLine constParser ["a: b"] 0 2).countP
      (fun c => c.deletions == 0) = 1 :=
  (attemptParsesAtLine_clean_first constParser ["a: b"] 0 2
    (by decide)).2.2

/-- Witness for `attemptParsesAtLine_bounds` at a concrete input. -/
theorem attemptParsesAtLine_bounds_witness :
    (attemptParsesAtLine constParser ["x: 1", "y: 2"] 1 3).length ≤ 3 + 1 :=
  (attemptParsesAtLine_bounds constParser ["x: 1", "y: 2"] 1 3
    (by decide)).2.2.1

/-! ## JavaScript string primitives

The host string methods used by the source (`trim`, `startsWith`,
`endsWith`, `split`, `indexOf`, `slice(-1)`) are modelled on the
character list of the string so that they are kernel-computable. -/

/-- Whitespace for the purposes of `trim`. -/
def charIsWs (c : Char) : Bool :=
  c == ' ' || c == '\t' || c == '\n' || c == '\r'

/-- `s.trimStart()`. -/
def strTrimLeft (s : String) : String :=
  String.mk (s.data.dropWhile charIsWs)

/-- `s.trimEnd()`. -/
def strTrimRight (s : String) : String :=
  String.mk ((s.data.reverse.dropWhile charIsWs).reverse)

/-- `s.trim()`. -/
def strTrim (s : String) : String :=
  strTrimLeft (strTrimRight s)

/-- `s.startsWith(p)`. -/
def strStartsWith (s p : String) : Bool :=
  p.data.isPrefixOf s.data

/-- `s.endsWith(p)`. -/
def strEndsWith (s p : String) : Bool :=
  p.data.isSuffixOf s.data

/-- `s.indexOf(c) !== -1` for a single character. -/
def strContainsChar (s : String) (c : Char) : Bool :=
  s.data.contains c

/-- `split(sep)` on a character list; an empty input yields one empty
field, as in JavaScript. -/
def splitCharList (sep : Char) : List Char → List (List Char)
  | [] => [[]]
  | c :: r =>
    match splitCharList sep r with
    | [] => [[]]
    | h :: t => if c == sep then [] :: h :: t else (c :: h) :: t

/-- `s.split(sep)` for a single-character separator. -/
def strSplitChar (s : String) (sep : Char) : List String :=
  (splitCharList sep s.data).map String.mk

/-- `s.slice(-1)`: the last character as a string, or "" when empty. -/
def strSliceLast (s : String) : String :=
  if s.data.isEmpty then "" else String.mk [s.data.getLastD ' ']

/-! ## Annotated values and schema model -/

/-- A parsed YAML result value (the `result` field of an annotated node, and
the element type of cursor paths, which mix mapping keys and numeric
indices). -/
inductive AnnValue where
  | nil
  | str (s : String)
  | num (n : Int)
  | boolV (b : Bool)
  | arr (xs : List AnnValue)
  | obj (fields : List (String × AnnValue))

mutual

/-- JavaScript string coercion of a value used as an object property key
(`subSchema.properties[key]` coerces the key to a string). -/
def keyString : AnnValue → String
  | .nil => "null"
  | .str s => s
  | .num n => toString n
  | .boolV b => if b then "true" else "false"
  | .arr xs => keyStringList xs
  | .obj _ => "[object Object]"

/-- Array-to-string coercion: elements joined with commas. -/
def keyStringList : List AnnValue → String
  | [] => ""
  | [x] => keyString x
  | x :: y :: r => keyString x ++ "," ++ keyStringList (y :: r)

end

/-- The type discriminant returned by the external `schemaType` helper.
Modelled from the spec: a schema node is an object, an array, one of the
three combinators, or some other (scalar-like) schema. -/
inductive SchemaKind where
  | object
  | array
  | anyOf
  | allOf
  | oneOf
  | other
  deriving DecidableEq

/-- A schema node: optional identity tag (`$id`), optional reference
(`$ref`), the type discriminant, named properties (for objects), the item
schema (for arrays) and the branch list (for combinators). -/
inductive Schema where
  | mk (id ref : Option String) (kind : SchemaKind)
      (props : List (String × Schema)) (items : Option Schema)
      (branches : List Schema)

def Schema.id : Schema → Option String
  | .mk i _ _ _ _ _ => i

def Schema.ref : Schema → Option String
  | .mk _ r _ _ _ _ => r

def Schema.kind : Schema → SchemaKind
  | .mk _ _ k _ _ _ => k

def Schema.props : Schema → List (String × Schema)
  | .mk _ _ _ p _ _ => p

def Schema.items : Schema → Option Schema
  | .mk _ _ _ _ it _ => it

def Schema.branches : Schema → List Schema
  | .mk _ _ _ _ _ b => b

/-- `if (subSchema.$id) { refs[subSchema.$id] = subSchema; }`: record the
node under its identity; the most recent registration wins lookups. -/
def registerId (refs : List (String × Schema)) (s : Schema) :
    List (String × Schema) :=
  match s.id with
  | some i => (i, s) :: refs
  | none => refs

/-- `if (subSchema.$ref) { ... subSchema = refs[subSchema.$ref]; }`: resolve
a reference against previously visited identities; an undefined reference
throws `Internal error: schema reference ... undefined`. -/
def derefSchema (refs : List (String × Schema)) (s : Schema) :
    Except String Schema :=
  match s.ref with
  | none => .ok s
  | some r =>
    match refs.lookup r with
    | none => .error ("Internal error: schema reference " ++ r ++ " undefined")
    | some s2 => .ok s2

/-- The recursive `inner(subSchema, index)` of `navigateSchema`.  The mutable
`refs` table is threaded explicitly; `fuel` models the JavaScript call
stack (the source recursion is unbounded and can diverge on cyclic
references); results are returned already flattened, which is
observationally equivalent to the source's nested arrays since every
consumer applies `flat(Infinity)` before inspecting them, and the branch
maps of `anyOf`/`oneOf` become left-to-right folds that accumulate the
flattened results while threading the reference table. -/
def innerF (path : List AnnValue) : Nat → List (String × Schema) → Schema →
    Nat → Except String (List Schema × List (String × Schema))
  | 0, _, _, _ => .error "Internal error: navigation recursion exhausted"
  | fuel + 1, refs0, s0, index =>
    let refs := registerId refs0 s0
    match derefSchema refs s0 with
    | .error e => .error e
    | .ok s =>
      if index = path.length then .ok ([s], refs)
      else
        match s.kind with
        | .object =>
          let key := keyString (path.getD index .nil)
          match s.props.lookup key with
          | none =>
            if index ≠ path.length - 1 then .ok ([], refs)
            else
              let completions2 := (s.props.map Prod.fst).filter
                (fun name => strStartsWith name key)
              if completions2.length = 0 then .ok ([], refs)
              else .ok ([s], refs)
          | some sub => innerF path fuel refs sub (index + 1)
        | .array =>
          match s.items with
          | none => .ok ([], refs)
          | some its => innerF path fuel refs its (index + 1)
        | .anyOf =>
          s.branches.foldlM (fun acc b => do
            let (r, refs1) ← innerF path fuel acc.2 b index
            pure (acc.1 ++ r, refs1)) ([], refs)
        | .allOf =>
          .error "Internal error: don't know how to navigate allOf schema :("
        | .oneOf =>
          match s.branches.foldlM (fun acc b => do
              let (r, refs1) ← innerF path fuel acc.2 b index
              pure (acc.1 ++ r, refs1)) (([] : List Schema), refs) with
          | .error e => .error e
          | .ok (result, refs2) =>
            if result.length ≠ 1 then .ok ([], refs2)
            else .ok (result, refs2)
        | .other => .ok ([], refs)

/-- The branch-fold step of the `anyOf`/`oneOf` cases of `innerF`, named so
that it can be reasoned about: navigate one branch, thread the reference
table and append the branch's (flattened) result. -/
def navStepF (path : List AnnValue) (fuel index : Nat) :
    List Schema × List (String × Schema) → Schema →
      Except String (List Schema × List (String × Schema)) :=
  fun acc b => do
    let (r, refs1) ← innerF path fuel acc.2 b index
    pure (acc.1 ++ r, refs1)

/-- `navigateSchema(schema, path)`: run `inner(schema, 0)` over an empty
reference table and flatten the result. -/
def navigateSchema (fuel : Nat) (schema : Schema) (path : List AnnValue) :
    Except String (List Schema) :=
  match innerF path fuel [] schema 0 with
  | .error e => .error e
  | .ok (r, _) => .ok r

/-- The per-branch navigation results of a combinator node, in branch order,
threading the reference table exactly as the branch fold does but keeping
each branch's (flattened) result separate. -/
def branchResultsF (path : List AnnValue) (fuel : Nat)
    (refs : List (String × Schema)) :
    List Schema → Nat →
      Except String (List (List Schema) × List (String × Schema))
  | [], _ => .ok ([], refs)
  | b :: bs, index =>
    match innerF path fuel refs b index with
    | .error e => .error e
    | .ok (r, refs1) =>
      match branchResultsF path fuel refs1 bs index with
      | .error e => .error e
      | .ok (rss, refs2) => .ok (r :: rss, refs2)

theorem navStepF_apply (path : List AnnValue) (fuel index : Nat)
    (acc : List Schema) (refs : List (String × Schema)) (b : Schema) :
    navStepF path fuel index (acc, refs) b =
      match innerF path fuel refs b index with
      | .error e => .error e
      | .ok (r, refs1) => .ok (acc ++ r, refs1) := by
  show innerF path fuel refs b index >>= _ = _
  cases innerF path fuel refs b index with
  | error e => rfl
  | ok pr => cases pr with
    | mk r refs1 => rfl

theorem foldlM_branchResults (path : List AnnValue) (fuel index : Nat) :
    ∀ (bs : List Schema) (acc : List Schema)
      (refs : List (String × Schema)),
      bs.foldlM (navStepF path fuel index) (acc, refs) =
        match branchResultsF path fuel refs bs index with
        | .error e => .error e
        | .ok (rss, refs2) => .ok (acc ++ rss.flatten, refs2) := by
  intro bs
  induction bs with
  | nil =>
    intro acc refs
    simp only [List.foldlM_nil, branchResultsF, List.flatten_nil,
      List.append_nil]
    rfl
  | cons b bs ih =>
    intro acc refs
    rw [List.foldlM_cons, navStepF_apply]
    cases hinner : innerF path fuel refs b index with
    | error e =>
      simp only [branchResultsF, hinner]
      rfl
    | ok pr =>
      obtain ⟨r, refs1⟩ := pr
      have h2 := ih (acc ++ r) refs1
      simp only [branchResultsF, hinner]
      cases hbr : branchResultsF path fuel refs1 bs index with
      | error e =>
        rw [hbr] at h2
        exact h2
      | ok pr2 =>
        obtain ⟨rss, refs2⟩ := pr2
        rw [hbr] at h2
        exact h2.trans (by simp [List.append_assoc])

theorem join_filter_ne_nil {α : Type} :
    ∀ (rss : List (List α)), (rss.filter (fun l => !l.isEmpty)).flatten =
      rss.flatten := by
  intro rss
  induction rss with
  | nil => rfl
  | cons l ls ih =>
    cases l with
    | nil => simpa [List.filter] using ih
    | cons x xs => simp [List.filter, ih]

/-- A schema that is a bare reference to an identity never registered. -/
def refOnlySchema : Schema :=
  .mk none (some "nope") .other [] none []

/-- claim C2 (counterexample).  A schema node whose reference does not
resolve makes navigation throw the internal error from the source
(`Internal error: schema reference ... undefined`); it does not return an
empty match. -/
theorem navigateSchema_unresolved_ref_throws :
    navigateSchema 5 refOnlySchema [] =
      .error "Internal error: schema reference nope undefined" := by
  rfl

/-- claim C2 (amended).  Whenever navigation encounters a schema node whose
reference does not resolve to a previously visited identity (after the
node's own identity is registered), it raises the internal error
`Internal error: schema reference ... undefined` — aborting the branch with
an exception rather than yielding an empty match. -/
theorem innerF_unresolved_ref (path : List AnnValue) (fuel : Nat)
    (refs : List (String × Schema)) (s : Schema) (index : Nat) (r : String)
    (h1 : s.ref = some r) (h2 : (registerId refs s).lookup r = none) :
    innerF path (fuel + 1) refs s index =
      .error ("Internal error: schema reference " ++ r ++ " undefined") := by
  simp [innerF, derefSchema, h1, h2]

/-- Witness for `innerF_unresolved_ref` at a concrete input. -/
theorem innerF_unresolved_ref_witness :
    innerF [] (4 + 1) [] refOnlySchema 0 =
      .error ("Internal error: schema reference " ++ "nope" ++ " undefined") :=
  innerF_unresolved_ref [] 4 [] refOnlySchema 0 "nope" rfl rfl

/-- A scalar-like schema tagged "A". -/
def leafA : Schema := .mk (some "A") none .other [] none []

/-- A scalar-like schema tagged "B". -/
def leafB : Schema := .mk (some "B") none .other [] none []

/-- An object schema whose property "k" is `leafA`. -/
def objA : Schema := .mk none none .object [("k", leafA)] none []

/-- An object schema whose property "k" is `leafB`. -/
def objB : Schema := .mk none none .object [("k", leafB)] none []

/-- An anyOf schema over `objA` and `objB`. -/
def anyAB : Schema := .mk none none .anyOf [] none [objA, objB]

/-- A oneOf schema with the single branch `anyAB`. -/
def oneWrap : Schema := .mk none none .oneOf [] none [anyAB]

/-- claim C3 (counterexample).  For the oneOf schema `oneWrap` and path
`["k"]`, exactly one branch (its only branch, `anyAB`) yields a non-empty
result — namely `[leafA, leafB]` — yet navigation of the oneOf returns no
match: the source requires the *flattened combined* result to have exactly
one element, not that exactly one branch be non-empty. -/
theorem navigateSchema_oneOf_total_count :
    navigateSchema 10 oneWrap [.str "k"] = .ok [] ∧
      navigateSchema 10 anyAB [.str "k"] = .ok [leafA, leafB] :=
  ⟨rfl, rfl⟩

/-- claim C3 (amended).  For a oneOf schema node on a live path, navigation
navigates into every branch (in order, threading the reference table) and
returns the concatenation of all branches' results if that concatenation
contains exactly one schema, and no match otherwise.  In particular, when
exactly one branch is non-empty and that branch yields exactly one schema,
that schema is returned; when no branch is non-empty, no match is
returned; but a unique non-empty branch yielding several schemas also
results in no match. -/
theorem navigateSchema_oneOf (fuel : Nat) (branches : List Schema)
    (props : List (String × Schema)) (its : Option Schema)
    (path : List AnnValue) (rss : List (List Schema))
    (refs2 : List (String × Schema)) (h0 : 0 < path.length)
    (h : branchResultsF path fuel [] branches 0 = .ok (rss, refs2)) :
    navigateSchema (fuel + 1) (Schema.mk none none .oneOf props its branches)
        path =
      .ok (if rss.flatten.length ≠ 1 then [] else rss.flatten) ∧
    (∀ x, rss.filter (fun l => !l.isEmpty) = [[x]] →
      navigateSchema (fuel + 1)
        (Schema.mk none none .oneOf props its branches) path = .ok [x]) ∧
    (rss.filter (fun l => !l.isEmpty) = [] →
      navigateSchema (fuel + 1)
        (Schema.mk none none .oneOf props its branches) path = .ok []) := by
  have hne : ¬(0 = path.length) := by omega
  have hfold := foldlM_branchResults path fuel 0 branches [] []
  rw [h] at hfold
  simp only [List.nil_append] at hfold
  have hmain : navigateSchema (fuel + 1)
      (Schema.mk none none .oneOf props its branches) path =
      .ok (if rss.flatten.length ≠ 1 then [] else rss.flatten) := by
    have hinner : innerF path (fuel + 1) []
        (Schema.mk none none .oneOf props its branches) 0 =
        match branches.foldlM (navStepF path fuel 0)
            (([] : List Schema), ([] : List (String × Schema))) with
        | .error e => .error e
        | .ok (result, refs3) =>
          if result.length ≠ 1 then .ok ([], refs3)
          else .ok (result, refs3) := by
      simp only [innerF, registerId, derefSchema, Schema.id, Schema.ref,
        Schema.kind, Schema.branches, if_neg hne]
      rfl
    simp only [navigateSchema]
    rw [hinner, hfold]
    by_cases hq : rss.flatten.length = 1
    · simp only [if_neg (not_not_intro hq)]
    · simp only [if_pos hq]
  refine ⟨hmain, ?_, ?_⟩
  · intro x hx
    have hflat : rss.flatten = [x] := by
      rw [← join_filter_ne_nil rss, hx]
      rfl
    rw [hmain, hflat]
    rfl
  · intro hx
    have hflat : rss.flatten = [] := by
      rw [← join_filter_ne_nil rss, hx]
      rfl
    rw [hmain, hflat]
    rfl

/-- Witness for `navigateSchema_oneOf` at a concrete input. -/
theorem navigateSchema_oneOf_witness :
    navigateSchema (9 + 1) oneWrap [AnnValue.str "k"] = .ok [] := by
  have h := (navigateSchema_oneOf 9 [anyAB] [] none [AnnValue.str "k"]
    [[leafA, leafB]] [("B", leafB), ("A", leafA)] (by decide) (by rfl)).1
  exact h

/-! ## Annotated nodes and the structural cursor locator -/

/-- An annotated node: source range (`start`/`end` — the latter spelt
`endLoc` since `end` is reserved), parsed result, concrete-syntax kind, and
child components (for mappings, a flat alternating key/value sequence). -/
inductive AnnNode where
  | mk (start endLoc : Nat) (result : AnnValue) (kind : String)
      (components : List AnnNode)

def AnnNode.start : AnnNode → Nat
  | .mk s _ _ _ _ => s

def AnnNode.endLoc : AnnNode → Nat
  | .mk _ e _ _ _ => e

def AnnNode.result : AnnNode → AnnValue
  | .mk _ _ r _ _ => r

def AnnNode.kind : AnnNode → String
  | .mk _ _ _ k _ => k

def AnnNode.components : AnnNode → List AnnNode
  | .mk _ _ _ _ cs => cs

mutual

/-- `flat(Infinity)` on a single accumulated path element: a JavaScript
array value is spliced recursively, anything else stays. -/
def flattenAnn : AnnValue → List AnnValue
  | .arr xs => flattenAnnList xs
  | v => [v]

/-- `flat(Infinity)` on a list: concatenate the flattened elements. -/
def flattenAnnList : List AnnValue → List AnnValue
  | [] => []
  | x :: r => flattenAnn x ++ flattenAnnList r

end

/-- The sequence loop of `locateCursor`'s `locate`: scan the items in order;
recurse into the first item whose range contains the offset; when an item
starts after the offset, return the path so far (for item 0) or the
previous index (otherwise); falling off the end throws the source's
internal error.  `rec` is the recursive call into a child node. -/
def seqLoop
    (rec : AnnNode → List AnnValue → Except String (List AnnValue × Bool))
    (pos : Nat) :
    List AnnNode → Nat → List AnnValue → Except String (List AnnValue × Bool)
  | [], _, _ =>
    .error "Internal error: cursor outside bounds in sequence locate?"
  | valueC :: rest, i, pathSoFar =>
    if valueC.start ≤ pos ∧ pos ≤ valueC.endLoc then
      rec valueC (.num (Int.ofNat i) :: pathSoFar)
    else if valueC.start > pos then
      if i = 0 then .ok (pathSoFar, false)
      else .ok (.num (Int.ofNat (i - 1)) :: pathSoFar, false)
    else seqLoop rec pos rest (i + 1) pathSoFar

/-- The mapping loop of `locateCursor`'s `locate`: scan key/value pairs; a
hit on the key returns it as the final path element; a hit on the value
recurses with the key prefixed; exhausting the pairs sets the error flag and
returns the path so far.  An odd trailing component would make the source
dereference `undefined`, modelled as a thrown TypeError. -/
def mapLoop
    (rec : AnnNode → List AnnValue → Except String (List AnnValue × Bool))
    (pos : Nat) :
    List AnnNode → List AnnValue → Except String (List AnnValue × Bool)
  | [], pathSoFar => .ok (pathSoFar, true)
  | [keyC], pathSoFar =>
    if keyC.start ≤ pos ∧ pos ≤ keyC.endLoc then
      .ok (keyC.result :: pathSoFar, false)
    else .error "TypeError: Cannot read properties of undefined"
  | keyC :: valueC :: rest, pathSoFar =>
    if keyC.start ≤ pos ∧ pos ≤ keyC.endLoc then
      .ok (keyC.result :: pathSoFar, false)
    else if valueC.start ≤ pos ∧ pos ≤ valueC.endLoc then
      rec valueC (keyC.result :: pathSoFar)
    else mapLoop rec pos rest pathSoFar

/-- The recursive `locate(node, pathSoFar)` of `locateCursor`.  The boolean
component models the `failedLast` flag (set exactly by the mapping
fall-through); `fuel` models the JavaScript call stack. -/
def locateF : Nat → Nat → AnnNode → List AnnValue →
    Except String (List AnnValue × Bool)
  | 0, _, _, _ => .error "Internal error: locate recursion exhausted"
  | f + 1, pos, node, pathSoFar =>
    if node.kind = "block_mapping" ∨ node.kind = "flow_mapping" then
      mapLoop (locateF f pos) pos node.components pathSoFar
    else if node.kind = "block_sequence" ∨ node.kind = "flow_sequence" then
      seqLoop (locateF f pos) pos node.components 0 pathSoFar
    else if node.kind ≠ "<<EMPTY>>" then .ok (node.result :: pathSoFar, false)
    else .ok (pathSoFar, false)

/-- The `{withError, value}` result of `locateCursor`. -/
structure LocateResult where
  withError : Bool
  value : List AnnValue

/-- `locateCursor(annotation, position)`: run `locate`, then
`flat(Infinity).reverse()` the accumulated path. -/
def locateCursor (fuel : Nat) (node : AnnNode) (position : Nat) :
    Except String LocateResult :=
  match locateF fuel position node [] with
  | .error e => .error e
  | .ok (v, failed) => .ok ⟨failed, (flattenAnnList v).reverse⟩

/-- A scalar item covering offsets 0–1. -/
def seqItemA : AnnNode := .mk 0 1 (.str "a") "plain_scalar" []

/-- A sequence node (range 0–6) whose only item covers 0–1. -/
def seqPastEnd : AnnNode := .mk 0 6 (.arr [.str "a"]) "block_sequence"
  [seqItemA]

/-- A scalar item covering offsets 4–6. -/
def seqGapItem : AnnNode := .mk 4 6 (.str "b") "plain_scalar" []

/-- A sequence node (range 0–10) whose only item covers 4–6. -/
def seqBeforeFirst : AnnNode := .mk 0 10 (.arr [.str "b"]) "block_sequence"
  [seqGapItem]

/-- claim C4 (counterexample).  An offset past the last item of a sequence
node makes `locateCursor` throw the source's internal error instead of
returning the nearest index; and an offset before the first item returns
the path so far with *no* index appended (here the empty path, not `[0]`). -/
theorem locateCursor_sequence_edges :
    locateCursor 3 seqPastEnd 5 =
        .error "Internal error: cursor outside bounds in sequence locate?" ∧
      locateCursor 3 seqBeforeFirst 2 = .ok ⟨false, []⟩ :=
  ⟨rfl, rfl⟩

/-- claim C4 (amended).  In a sequence node the locator scans items in
order and (a) recurses (with that index prefixed) only into an item whose
range *contains* the offset; (b) when the first hit is an item that merely
starts after the offset, it does not recurse: for item 0 it returns the
path so far with no index appended, otherwise it appends the previous
index `i-1`; (c) when the offset is past every item (no hit at all), it
throws the internal error `cursor outside bounds in sequence locate?`.
The first conjunct ties `locateF` on a "block_sequence" node to the scan
`seqLoop`; the remaining two characterise the scan. -/
theorem locateF_sequence_rules (pos : Nat)
    (rec : AnnNode → List AnnValue → Except String (List AnnValue × Bool)) :
    (∀ (f : Nat) (node : AnnNode) (pathSoFar : List AnnValue),
      node.kind = "block_sequence" →
      locateF (f + 1) pos node pathSoFar =
        seqLoop (locateF f pos) pos node.components 0 pathSoFar) ∧
    (∀ (comps : List AnnNode) (i : Nat) (pathSoFar : List AnnValue),
      (∀ b ∈ comps, ¬(b.start ≤ pos ∧ pos ≤ b.endLoc) ∧ ¬(b.start > pos)) →
      seqLoop rec pos comps i pathSoFar =
        .error "Internal error: cursor outside bounds in sequence locate?") ∧
    (∀ (pre : List AnnNode) (c : AnnNode) (post : List AnnNode) (i j : Nat)
        (pathSoFar : List AnnValue),
      (∀ b ∈ pre, ¬(b.start ≤ pos ∧ pos ≤ b.endLoc) ∧ ¬(b.start > pos)) →
      ((c.start ≤ pos ∧ pos ≤ c.endLoc) ∨ c.start > pos) →
      j = i + pre.length →
      seqLoop rec pos (pre ++ c :: post) i pathSoFar =
        if c.start ≤ pos ∧ pos ≤ c.endLoc then
          rec c (.num (Int.ofNat j) :: pathSoFar)
        else if j = 0 then .ok (pathSoFar, false)
        else .ok (.num (Int.ofNat (j - 1)) :: pathSoFar, false)) := by
  refine ⟨?_, ?_, ?_⟩
  · intro f node pathSoFar hk
    simp [locateF, hk]
  · intro comps
    induction comps with
    | nil => intro i pathSoFar _; rfl
    | cons b rest ih =>
      intro i pathSoFar hmiss
      have hb := hmiss b (by simp)
      simp only [seqLoop, if_neg hb.1, if_neg hb.2]
      exact ih (i + 1) pathSoFar (fun x hx => hmiss x (by simp [hx]))
  · intro pre
    induction pre with
    | nil =>
      intro c post i j pathSoFar _ hc hj
      simp only [List.length_nil, Nat.add_zero] at hj
      subst hj
      simp only [List.nil_append, seqLoop]
      by_cases h1 : c.start ≤ pos ∧ pos ≤ c.endLoc
      · simp [h1]
      · have h2 : c.start > pos := hc.resolve_left h1
        simp [h1, h2]
    | cons b pre ih =>
      intro c post i j pathSoFar hmiss hc hj
      have hb := hmiss b (by simp)
      have hj' : j = (i + 1) + pre.length := by
        simp only [List.length_cons] at hj
        omega
      have := ih c post (i + 1) j pathSoFar
        (fun x hx => hmiss x (by simp [hx])) hc hj'
      simp only [List.cons_append, seqLoop, if_neg hb.1, if_neg hb.2]
      exact this

/-- Witness for `locateF_sequence_rules` at concrete inputs. -/
theorem locateF_sequence_rules_witness :
    seqLoop (locateF 2 2) 2 [seqGapItem] 0 [] = .ok ([], false) := by
  have h := (locateF_sequence_rules 2 (locateF 2 2)).2.2 [] seqGapItem []
    0 0 [] (by simp) (by right; decide) (by simp)
  simpa using h

/-! ## Completion generator -/

/-- A completion item as produced by the external `schemaCompletions`
collaborator and transformed by `completions`: candidate text, kind tag
("key" or "value"), the suggest-on-accept marker and the owning schema. -/
structure CompletionItem where
  value : String
  type : String
  suggest_on_accept : Bool
  schema : Schema

/-- The `{token, completions, cacheable}` object resolved by
`completionsPromise`. -/
structure CompletionResult where
  token : String
  completions : List CompletionItem
  cacheable : Bool

/-- Computable lexicographic comparison of character lists by code point;
models the host's `localeCompare`-based ordering, which the specification
describes as lexicographic. -/
def charListLe : List Char → List Char → Bool
  | [], _ => true
  | _ :: _, [] => false
  | a :: as, b :: bs =>
    if a.toNat < b.toNat then true
    else if b.toNat < a.toNat then false
    else charListLe as bs

/-- Lexicographic string comparison (see `charListLe`). -/
def strLe (a b : String) : Bool :=
  charListLe a.data b.data

/-- The comparison `(a, b) => a.value.localeCompare(b.value)` used by the
completion sort. -/
def completionLe (a b : CompletionItem) : Prop :=
  strLe a.value b.value = true

instance : DecidableRel completionLe := by
  intro a b
  unfold completionLe
  infer_instance

theorem charListLe_total : ∀ as bs : List Char,
    charListLe as bs = true ∨ charListLe bs as = true := by
  intro as
  induction as with
  | nil => intro bs; left; rfl
  | cons a as ih =>
    intro bs
    cases bs with
    | nil => right; rfl
    | cons b bs =>
      by_cases h1 : a.toNat < b.toNat
      · left; simp [charListLe, h1]
      · by_cases h2 : b.toNat < a.toNat
        · right; simp [charListLe, h2]
        · rcases ih bs with h | h
          · left; simp [charListLe, h1, h2, h]
          · right; simp [charListLe, h1, h2, h]

theorem charListLe_trans : ∀ as bs cs : List Char,
    charListLe as bs = true → charListLe bs cs = true →
      charListLe as cs = true := by
  intro as
  induction as with
  | nil => intro bs cs _ _; rfl
  | cons a as ih =>
    intro bs cs h1 h2
    cases bs with
    | nil => simp [charListLe] at h1
    | cons b bs =>
      cases cs with
      | nil => simp [charListLe] at h2
      | cons c cs =>
        simp only [charListLe] at h1 h2 ⊢
        by_cases hab : a.toNat < b.toNat
        · by_cases hbc : b.toNat < c.toNat
          · have hac : a.toNat < c.toNat := by omega
            simp [hac]
          · by_cases hcb : c.toNat < b.toNat
            · rw [if_neg hbc, if_pos hcb] at h2
              exact absurd h2 (by simp)
            · have hac : a.toNat < c.toNat := by omega
              simp [hac]
        · by_cases hba : b.toNat < a.toNat
          · rw [if_neg hab, if_pos hba] at h1
            exact absurd h1 (by simp)
          · rw [if_neg hab, if_neg hba] at h1
            by_cases hbc : b.toNat < c.toNat
            · have hac : a.toNat < c.toNat := by omega
              simp [hac]
            · by_cases hcb : c.toNat < b.toNat
              · rw [if_neg hbc, if_pos hcb] at h2
                exact absurd h2 (by simp)
              · rw [if_neg hbc, if_neg hcb] at h2
                have hac : ¬a.toNat < c.toNat := by omega
                have hca : ¬c.toNat < a.toNat := by omega
                rw [if_neg hac, if_neg hca]
                exact ih bs cs h1 h2

instance : IsTotal CompletionItem completionLe :=
  ⟨fun a b => charListLe_total a.value.data b.value.data⟩

instance : IsTrans CompletionItem completionLe :=
  ⟨fun _ _ _ h1 h2 => charListLe_trans _ _ _ h1 h2⟩

/-- `completionsPromise`: copy the list, sort it by
`a.value.localeCompare(b.value)` (stable, as the host sort is) and resolve
`{token, completions, cacheable: true}`. -/
def completionsPromise (cs : List CompletionItem) (word : String) :
    CompletionResult :=
  { token := word,
    completions := List.insertionSort completionLe cs,
    cacheable := true }

/-- The per-candidate transformation inside `completions`: a
suggest-on-accept, key-typed candidate of an object schema gets a newline,
the comment prefix and a deeper indentation appended (plus a dash for an
array-typed property), so accepting "parent:" positions the cursor to type
the child.  The external `schemaType` of a missing property subschema is
modelled as neither object nor array (candidate unchanged). -/
def mapCompletion (indent : Nat) (commentPfx : String)
    (c : CompletionItem) : CompletionItem :=
  if ¬c.suggest_on_accept ∨ c.type = "value" ∨ c.schema.kind ≠ .object then c
  else
    let key := (strSplitChar c.value ':').headD ""
    match c.schema.props.lookup key with
    | some sub =>
      if sub.kind = .object then
        { c with value := c.value ++ "\n" ++ commentPfx ++
            String.mk (List.replicate (indent + 2) ' ') }
      else if sub.kind = .array then
        { c with value := c.value ++ "\n" ++ commentPfx ++
            String.mk (List.replicate (indent + 2) ' ') ++ "- " }
      else c
    | none => c

/-- The candidate pipeline of `completions`: map each matching schema to
its (transformed) candidates, flatten, and filter to candidates whose text
starts with the in-progress word.  `sc` is the external `schemaCompletions`
collaborator. -/
def completionsList (sc : Schema → List CompletionItem)
    (matching : List Schema) (word : String) (indent : Nat)
    (commentPfx : String) : List CompletionItem :=
  List.filter (fun c => strStartsWith c.value word)
    (List.flatten (matching.map
      (fun s2 => (sc s2).map (mapCompletion indent commentPfx))))

/-- `completions(obj)`: navigate the schema along the path, build the
filtered candidate list, and return the `noCompletions` sentinel (`null`,
modelled as `none`) when it is empty, else the sorted promise result.  A
missing path (`undefined`, from a failed indentation heuristic) makes the
source dereference `undefined.length` inside `navigateSchema` — a thrown
TypeError. -/
def completions (sc : Schema → List CompletionItem) (fuel : Nat)
    (schema : Schema) (path? : Option (List AnnValue)) (word : String)
    (indent : Nat) (commentPfx : String) :
    Except String (Option CompletionResult) :=
  match path? with
  | none => .error "TypeError: Cannot read properties of undefined"
  | some path =>
    match navigateSchema fuel schema path with
    | .error e => .error e
    | .ok matchingSchemas =>
      let completions2 := completionsList sc matchingSchemas word indent
        commentPfx
      if completions2.length = 0 then .ok none
      else .ok (some (completionsPromise completions2 word))

theorem completionsList_of_id (sc : Schema → List CompletionItem)
    (word : String) (indent : Nat) (commentPfx : String) :
    ∀ (ms : List Schema),
      (∀ s ∈ ms, ∀ c ∈ sc s, mapCompletion indent commentPfx c = c) →
      completionsList sc ms word indent commentPfx =
        (ms.map sc).flatten.filter (fun c => strStartsWith c.value word) := by
  intro ms
  induction ms with
  | nil => intro _; rfl
  | cons s ms ih =>
    intro hid
    have hmap : (sc s).map (mapCompletion indent commentPfx) = sc s := by
      have := List.map_congr_left (l := sc s)
        (f := mapCompletion indent commentPfx) (g := id)
        (fun c hc => hid s (by simp) c hc)
      simpa using this
    have ihr := ih (fun x hx c hc => hid x (by simp [hx]) c hc)
    simp only [completionsList] at ihr
    simp only [completionsList, List.map_cons, List.flatten_cons,
      List.filter_append]
    rw [hmap, ihr]

/-- The spec's example candidate "width" (plain, no suggest-on-accept). -/
def exWidth : CompletionItem := ⟨"width", "key", false, leafA⟩

/-- The spec's example candidate "weight". -/
def exWeight : CompletionItem := ⟨"weight", "key", false, leafA⟩

/-- The spec's example candidate "height". -/
def exHeight : CompletionItem := ⟨"height", "key", false, leafA⟩

/-- An external `schemaCompletions` behaviour returning the spec's example
candidates for every schema. -/
def exSc : Schema → List CompletionItem :=
  fun _ => [exWidth, exWeight, exHeight]

/-- claim C7 (confirmed).  For every raw candidate list (any behaviour of
the external `schemaCompletions` collaborator, candidates untouched by the
suggest-on-accept transformation) and every in-progress word, the
completion generator returns exactly the candidates whose value starts
with the word, sorted lexicographically by value (the result is sorted
under `completionLe` and is a permutation of the filtered raw list); in
particular word "w" over values ["width","weight","height"] returns
["weight","width"] in that order. -/
theorem completions_filter_sort (sc : Schema → List CompletionItem)
    (fuel : Nat) (schema : Schema) (path : List AnnValue) (word : String)
    (indent : Nat) (commentPfx : String) (ms : List Schema)
    (hnav : navigateSchema fuel schema path = .ok ms)
    (hid : ∀ s ∈ ms, ∀ c ∈ sc s, mapCompletion indent commentPfx c = c)
    (hne : completionsList sc ms word indent commentPfx ≠ []) :
    completions sc fuel schema (some path) word indent commentPfx =
      .ok (some ⟨word,
        List.insertionSort completionLe
          ((ms.map sc).flatten.filter (fun c => strStartsWith c.value word)),
        true⟩) ∧
    List.Sorted completionLe (List.insertionSort completionLe
      ((ms.map sc).flatten.filter (fun c => strStartsWith c.value word))) ∧
    List.Perm
      (List.insertionSort completionLe
        ((ms.map sc).flatten.filter (fun c => strStartsWith c.value word)))
      ((ms.map sc).flatten.filter (fun c => strStartsWith c.value word)) ∧
    completions exSc 1 leafB (some []) "w" 0 "" =
      .ok (some ⟨"w", [exWeight, exWidth], true⟩) := by
  have hlist := completionsList_of_id sc word indent commentPfx ms hid
  refine ⟨?_, List.sorted_insertionSort _ _, List.perm_insertionSort _ _, ?_⟩
  · have hlen : ¬(((ms.map sc).flatten.filter
        (fun c => strStartsWith c.value word)).length = 0) := by
      intro hz
      exact hne (by rw [hlist]; exact List.length_eq_zero.mp hz)
    simp only [completions, hnav, hlist, if_neg hlen]
    rfl
  · rfl

/-- Witness for `completions_filter_sort`: the spec's own example. -/
theorem completions_filter_sort_witness :
    completions exSc 1 leafB (some []) "w" 0 "" =
      .ok (some ⟨"w", [exWeight, exWidth], true⟩) :=
  (completions_filter_sort exSc 1 leafB [] "w" 0 "" [leafB] rfl
    (by
      intro s hs c hc
      simp only [exSc, List.mem_cons, List.not_mem_nil, or_false] at hc
      rcases hc with rfl | rfl | rfl <;> rfl)
    (by
      rw [show completionsList exSc [leafB] "w" 0 "" = [exWidth, exWeight]
        from rfl]
      simp)).2.2.2

/-- claim C8 (confirmed).  Whenever the candidate list is empty after
filtering by the in-progress word, the completion generator returns the
distinguished `noCompletions` sentinel — a promise resolving `null`
(modelled `.ok none`) — not an empty success list and not an exception. -/
theorem completions_empty_sentinel (sc : Schema → List CompletionItem)
    (fuel : Nat) (schema : Schema) (path : List AnnValue) (word : String)
    (indent : Nat) (commentPfx : String) (ms : List Schema)
    (hnav : navigateSchema fuel schema path = .ok ms)
    (hempty : completionsList sc ms word indent commentPfx = []) :
    completions sc fuel schema (some path) word indent commentPfx =
      .ok none := by
  simp [completions, hnav, hempty]

/-- Witness for `completions_empty_sentinel` at a concrete input. -/
theorem completions_empty_sentinel_witness :
    completions (fun _ => []) 1 leafB (some []) "w" 0 "" = .ok none :=
  completions_empty_sentinel (fun _ => []) 1 leafB [] "w" 0 "" [leafB]
    rfl rfl

/-! ## Validator cache and serialization queue -/

/-- Trace state for `withValidator`/`getValidator`: the `yamlValidators`
cache (schema name → validator instance id), the next fresh instance id,
the log of constructions (one entry per `new core.YAMLSchema(schema)`),
and the run log recording, in execution order, which request's body ran
with which validator instance. -/
structure ValidatorState where
  yamlValidators : List (String × Nat)
  nextId : Nat
  constructions : List String
  runLog : List (Nat × Nat)

/-- The process-start state: no cached validators, nothing run. -/
def initialValidatorState : ValidatorState := ⟨[], 0, [], []⟩

/-- `getValidator(context)`: return the cached validator for the schema
name, constructing and caching a fresh instance on first use. -/
def getValidator (schemaName : String) (st : ValidatorState) :
    Nat × ValidatorState :=
  match st.yamlValidators.lookup schemaName with
  | some v => (v, st)
  | none =>
    (st.nextId,
      { st with
        yamlValidators := (schemaName, st.nextId) :: st.yamlValidators,
        nextId := st.nextId + 1,
        constructions := st.constructions ++ [schemaName] })

/-- Modelled from the spec: `core.PromiseQueue` (not part of the given
sources) runs enqueued tasks strictly one at a time in enqueue (FIFO)
order, per §5 of the specification.  `runQueue` executes a list of
`withValidator` requests `(requestId, schemaName)` under that discipline:
each request acquires its validator via `getValidator` and its body runs
to completion (appending its record to the run log) before the next
request starts, so bodies never interleave. -/
def runQueue (reqs : List (Nat × String)) (st : ValidatorState) :
    ValidatorState :=
  match reqs with
  | [] => st
  | (idx, name) :: rest =>
    match getValidator name st with
    | (v, st1) => runQueue rest { st1 with runLog := st1.runLog ++ [(idx, v)] }

theorem getValidator_runLog (n : String) (st : ValidatorState) :
    ((getValidator n st).2).runLog = st.runLog := by
  unfold getValidator
  cases st.yamlValidators.lookup n <;> rfl

/-- claim C9 (confirmed; the PromiseQueue itself is modelled from the
spec).  For a pair of requests naming the same schema, the validator for
that schema is constructed exactly once across both requests (the second
request observes the cached instance 0), and the two bodies run strictly
one at a time in first-requested-first-run order with the same validator
instance; moreover, for every request list, the run log order equals the
enqueue order. -/
theorem withValidator_serialized (name : String) :
    (runQueue [(0, name), (1, name)] initialValidatorState).constructions
        = [name] ∧
      (runQueue [(0, name), (1, name)] initialValidatorState).runLog
        = [(0, 0), (1, 0)] ∧
      (∀ (reqs : List (Nat × String)) (st : ValidatorState),
        (runQueue reqs st).runLog.map Prod.fst =
          st.runLog.map Prod.fst ++ reqs.map Prod.fst) := by
  have hfifo : ∀ (reqs : List (Nat × String)) (st : ValidatorState),
      (runQueue reqs st).runLog.map Prod.fst =
        st.runLog.map Prod.fst ++ reqs.map Prod.fst := by
    intro reqs
    induction reqs with
    | nil => intro st; simp [runQueue]
    | cons r rest ih =>
      intro st
      obtain ⟨idx, nm⟩ := r
      simp only [runQueue]
      rcases hgv : getValidator nm st with ⟨v, st1⟩
      have hrl : st1.runLog = st.runLog := by
        have h := getValidator_runLog nm st
        rw [hgv] at h
        exact h
      rw [ih]
      simp [hrl]
  have hlookup : (([(name, 0)] : List (String × Nat)).lookup name)
      = some 0 := by
    simp [List.lookup]
  refine ⟨?_, ?_, hfifo⟩
  · simp [runQueue, getValidator, initialValidatorState, hlookup]
  · simp [runQueue, getValidator, initialValidatorState, hlookup]

/-! ## Annotated-tree builder -/

/-- `annotate(node, result, components)` with `mapClosest` as the identity
on offsets. -/
def annNode (n : TSNode) (v : AnnValue) (comps : List AnnNode) : AnnNode :=
  ⟨n.startIndex, n.endIndex, v, n.type, comps⟩

/-- `annotateEmpty(position)`. -/
def annEmpty (p : Nat) : AnnNode :=
  ⟨p, p, .nil, "<<EMPTY>>", []⟩

/-- JavaScript property insertion `result[key] = value`: an existing key
keeps its position and is overwritten, a new key is appended. -/
def insertKeep (l : List (String × AnnValue)) (k : String) (v : AnnValue) :
    List (String × AnnValue) :=
  if l.any (fun p => p.1 == k) then
    l.map (fun p => if p.1 == k then (k, v) else p)
  else l ++ [(k, v)]

/-- `const {key, value} = component.result` — field access on the pair
object built by the mapping-pair rules. -/
def pairField (v : AnnValue) (f : String) : AnnValue :=
  match v with
  | .obj fields => (fields.lookup f).getD .nil
  | _ => .nil

/-- The sequence-kind loop of `buildAnnotated`: children whose type is not
the item type are skipped (structural delimiters); each item is built
recursively and a `null` build result would make the source dereference
`component.result`, modelled as a thrown TypeError. -/
def buildSeqItems (rec : Option TSNode → Except String (Option AnnNode))
    (itemType : String) : List TSNode → Except String (List AnnNode)
  | [] => .ok []
  | child :: rest =>
    if child.type ≠ itemType then buildSeqItems rec itemType rest
    else
      match rec (some child) with
      | .error e => .error e
      | .ok none => .error "TypeError: Cannot read properties of null"
      | .ok (some comp) =>
        match buildSeqItems rec itemType rest with
        | .error e => .error e
        | .ok comps => .ok (comp :: comps)

/-- The `block_mapping` loop of `buildAnnotated`: an ERROR child
contributes its raw text as key (first marked `<<ERROR>>`, then
immediately overwritten by the pair's null value, exactly as the source's
two assignments do) plus an empty value node; any other non-pair child is
a hard internal error; pair children are built recursively.  The pair's
components are spread into the mapping's flat component list. -/
def buildMapFold (rec : Option TSNode → Except String (Option AnnNode)) :
    List TSNode → List (String × AnnValue) → List AnnNode →
      Except String (List (String × AnnValue) × List AnnNode)
  | [], result, comps => .ok (result, comps)
  | child :: rest, result, comps =>
    if child.type = "ERROR" then
      let key2 := annNode child (.str child.text) []
      let value2 := annEmpty child.endIndex
      let component := annNode child
        (.obj [("key", .str child.text), ("value", .nil)]) [key2, value2]
      let result1 := insertKeep result child.text (.str "<<ERROR>>")
      let k := pairField component.result "key"
      let v := pairField component.result "value"
      buildMapFold rec rest (insertKeep result1 (keyString k) v)
        (comps ++ component.components)
    else if child.type ≠ "block_mapping_pair" then
      .error ("Internal error: Expected a block_mapping_pair, got " ++
        child.type ++ " instead.")
    else
      match rec (some child) with
      | .error e => .error e
      | .ok none => .error "TypeError: Cannot read properties of null"
      | .ok (some component) =>
        let k := pairField component.result "key"
        let v := pairField component.result "value"
        buildMapFold rec rest (insertKeep result (keyString k) v)
          (comps ++ component.components)

/-- `buildNode(node)` of `buildAnnotated` (null node allowed, returning
null); `jp` models the host `JSON.parse` (`none` = parse failure); `fuel`
models the JavaScript call stack. -/
def buildNodeF (jp : String → Option AnnValue) :
    Nat → Option TSNode → Except String (Option AnnNode)
  | 0, _ => .error "Internal error: build recursion exhausted"
  | _ + 1, none => .ok none
  | fuel + 1, some n =>
    match n.type with
    | "stream" | "document" | "block_node" | "flow_node" =>
      buildNodeF jp fuel n.children.head?
    | "block_sequence" =>
      match buildSeqItems (buildNodeF jp fuel) "block_sequence_item"
          n.children with
      | .error e => .error e
      | .ok comps =>
        .ok (some (annNode n (.arr (comps.map AnnNode.result)) comps))
    | "block_sequence_item" =>
      if n.children.length < 2 then .ok (some (annEmpty n.endIndex))
      else buildNodeF jp fuel n.children[1]?
    | "double_quote_scalar" =>
      match jp n.text with
      | some v => .ok (some (annNode n v []))
      | none => .error "SyntaxError: Unexpected token in JSON"
    | "plain_scalar" =>
      .ok (some (annNode n ((jp n.text).getD (.str n.text)) []))
    | "flow_sequence" =>
      match buildSeqItems (buildNodeF jp fuel) "flow_node" n.children with
      | .error e => .error e
      | .ok comps =>
        .ok (some (annNode n (.arr (comps.map AnnNode.result)) comps))
    | "block_mapping" =>
      match buildMapFold (buildNodeF jp fuel) n.children [] [] with
      | .error e => .error e
      | .ok (result, comps) => .ok (some (annNode n (.obj result) comps))
    | "block_mapping_pair" =>
      match n.children with
      | [c0, _, c2] =>
        let key := annNode c0 (.str c0.text) []
        match buildNodeF jp fuel (some c2) with
        | .error e => .error e
        | .ok none => .error "TypeError: Cannot read properties of null"
        | .ok (some value) =>
          .ok (some (annNode n
            (.obj [("key", key.result), ("value", value.result)])
            [key, value]))
      | [c0, _] =>
        let key := annNode c0 (.str c0.text) []
        let value := annEmpty n.endIndex
        .ok (some (annNode n
          (.obj [("key", key.result), ("value", value.result)])
          [key, value]))
      | _ =>
        let key := annEmpty n.endIndex
        let value := annEmpty n.endIndex
        .ok (some (annNode n
          (.obj [("key", key.result), ("value", value.result)])
          [key, value]))
    | _ =>
      .error ("Internal error: don't know how to build node of type " ++
        n.type)

/-- `buildAnnotated(tree, mappedSource)`. -/
def buildAnnotated (jp : String → Option AnnValue) (fuel : Nat)
    (tree : TSNode) : Except String (Option AnnNode) :=
  buildNodeF jp fuel (some tree)

/-! ## Indentation fallback locator -/

/-- The flat text of a line-list document. -/
def codeValue (code : List String) : String :=
  String.intercalate "\n" code

/-- `core.lines` / `mappedLines`: split a flat text into lines. -/
def stringLines (s : String) : List String :=
  strSplitChar s '\n'

/-- `getIndent(l)`: `l.length - l.trimStart().length`. -/
def getIndent (l : String) : Nat :=
  l.length - (strTrimLeft l).length

/-- `rowColToIndex` (external core helper, modelled from the spec): the
offset of `(row, col)` in the flat text — the lengths of the earlier lines
plus their newlines, plus the column. -/
def rowColToIndex (code : List String) (row col : Nat) : Nat :=
  (((code.take row).map (fun l => l.length + 1)).sum) + col

/-- `predecessor[v]` for a JavaScript index that may be negative
(yielding `undefined`, i.e. `none`). -/
def predGet (pred : List (Option Int)) (i : Int) : Option Int :=
  if i < 0 then none
  else pred.getD i.toNat none

/-- The inner walk of `getYamlIndentTree`'s lesser-indentation case:
`let v = prevPredecessor; while (v >= 0 && indents[v] >= lineIndent)
v = predecessor[v];` (an `undefined` v exits the loop). -/
def indentWalkV (pred : List (Option Int)) (indents : List Nat)
    (lineIndent : Nat) : Nat → Option Int → Option Int
  | 0, v => v
  | fuel + 1, v =>
    match v with
    | none => none
    | some x =>
      if 0 ≤ x ∧ lineIndent ≤ indents.getD x.toNat 0 then
        indentWalkV pred indents lineIndent fuel (predGet pred x)
      else some x

/-- The line scan of `getYamlIndentTree`: one forward pass computing each
line's indentation and its predecessor pointer (a blank line inherits the
previous predecessor's pointer; equal indentation inherits it too but
advances the previous-line marker; lesser indentation walks back; greater
indentation points at the previous line). -/
def indentTreeGo : List String → Nat → List (Option Int) → List Nat →
    Int → Int → List (Option Int) × List Nat
  | [], _, pred, indents, _, _ => (pred, indents)
  | line :: rest, i, pred, indents, indentation, prevPredecessor =>
    let lineIndent := getIndent line
    let indents1 := indents ++ [lineIndent]
    if (strTrim line).length = 0 then
      indentTreeGo rest (i + 1) (pred ++ [predGet pred prevPredecessor])
        indents1 indentation prevPredecessor
    else if (lineIndent : Int) = indentation then
      indentTreeGo rest (i + 1) (pred ++ [predGet pred prevPredecessor])
        indents1 indentation (Int.ofNat i)
    else if (lineIndent : Int) < indentation then
      let v := indentWalkV pred indents1 lineIndent (pred.length + 1)
        (some prevPredecessor)
      indentTreeGo rest (i + 1) (pred ++ [v]) indents1 (lineIndent : Int)
        (Int.ofNat i)
    else
      indentTreeGo rest (i + 1) (pred ++ [some prevPredecessor]) indents1
        (lineIndent : Int) (Int.ofNat i)

/-- `getYamlIndentTree(code)`: the predecessor and indentation arrays. -/
def getYamlIndentTree (code : List String) :
    List (Option Int) × List Nat :=
  indentTreeGo code 0 [] [] (-1) (-1)

/-- `let prev = lineNo; while (prev >= 0 && lines[prev].trim().length
=== 0) prev--;`. -/
def blankBack (lines : List String) : Nat → Int → Int
  | 0, prev => prev
  | fuel + 1, prev =>
    if 0 ≤ prev ∧ (strTrim (lines.getD prev.toNat "")).length = 0 then
      blankBack lines fuel (prev - 1)
    else prev

/-- The shared tail of one iteration of `locateFromIndentation`'s walk:
push a sequence marker for a dash line, the key for a `key:` line, fail
the heuristic (`void 0`, modelled `none`) for any other non-blank line at
eligible indentation, then follow the predecessor pointer. -/
def indentTail (pred : List (Option Int)) (indents : List Nat)
    (lineIndent : Nat)
    (next : Option Int → List AnnValue →
      Except String (Option (List AnnValue)))
    (lineNo : Int) (trimmed : String) (path : List AnnValue) :
    Except String (Option (List AnnValue)) :=
  if indents.getD lineNo.toNat 0 ≤ lineIndent then
    if strStartsWith trimmed "-" then
      next (predGet pred lineNo) (.num 0 :: path)
    else if strEndsWith trimmed ":" then
      next (predGet pred lineNo)
        (.str (trimmed.take (trimmed.length - 1)) :: path)
    else if trimmed.length ≠ 0 then .ok none
    else next (predGet pred lineNo) path
  else next (predGet pred lineNo) path

/-- The predecessor walk of `locateFromIndentation` (`while (lineNo !==
-1)`), including the blank-line rule; an `undefined` line number makes the
source dereference `lines[undefined]`, modelled as a thrown TypeError. -/
def locateIndentGo (lines : List String) (pred : List (Option Int))
    (indents : List Nat) (lineIndent : Nat) :
    Nat → Option Int → List AnnValue →
      Except String (Option (List AnnValue))
  | 0, _, _ => .error "Internal error: indentation walk exhausted"
  | fuel + 1, lineNo?, path =>
    match lineNo? with
    | none => .error "TypeError: Cannot read properties of undefined"
    | some lineNo =>
      if lineNo = -1 then .ok (some path.reverse)
      else
        let ln := lines.getD lineNo.toNat ""
        let trimmed := strTrim ln
        if trimmed.length = 0 then
          let prev := blankBack lines (lineNo.toNat + 1) lineNo
          if prev = -1 then .ok (some path.reverse)
          else if getIndent (lines.getD prev.toNat "") < lineIndent then
            locateIndentGo lines pred indents lineIndent fuel (some prev)
              path
          else
            indentTail pred indents lineIndent
              (locateIndentGo lines pred indents lineIndent fuel) lineNo
              trimmed path
        else
          indentTail pred indents lineIndent
            (locateIndentGo lines pred indents lineIndent fuel) lineNo
            trimmed path

/-- `locateFromIndentation(context)`: build the indentation tree and walk
predecessors from the cursor's row, returning the root-to-leaf path
(`none` models the heuristic's `void 0` failure). -/
def locateFromIndentation (line : String) (codeStr : String) (row : Nat) :
    Except String (Option (List AnnValue)) :=
  let lines := stringLines codeStr
  match getYamlIndentTree lines with
  | (predecessor, indents) =>
    locateIndentGo lines predecessor indents (getIndent line)
      (lines.length + row + 2) (some (Int.ofNat row)) []

/-! ## Front-matter fence handling and the completion entry point -/

/-- The front-matter fence processing at the top of
`completionsFromGoodParseYAML` (`none` = the `return false` sentinel for a
cursor on a fence row).  The source strips the *leading* fence with
`mappedString(code, [{begin: 0, end: 3}])`: `mappedString` fragments are
`[start,end)` ranges (per the spec), so the absent `start` field reads as
`undefined`, which JavaScript range extraction coerces to 0 — the kept
fragment is `[0,3)`, i.e. exactly the three dashes, not the rest of the
document.  The trailing branch keeps `[0, length-3)`, which does strip the
trailing dashes. -/
def fenceProcess (code : List String) (row : Nat) : Option (List String) :=
  let step1 :=
    if strStartsWith (codeValue code) "---" then
      if row = 0 then none
      else some (stringLines ((codeValue code).take 3))
    else some code
  match step1 with
  | none => none
  | some code1 =>
    if strEndsWith (codeValue code1) "---" then
      if row = code1.length - 1 then none
      else some (stringLines
        ((codeValue code1).take ((codeValue code1).length - 3)))
    else some code1

/-- claim C6 (code bug).  For the document `---\na: 1\n---` with a
completion request at row 1, the fence processing keeps only the three
leading dashes (the `{begin: 0, end: 3}` range keeps `[0,3)` instead of
removing it) and the trailing branch then strips those, so the processed
text is empty rather than `a: 1`; moreover, after the broken leading
strip, a cursor on the trailing fence row (row 2) is no longer detected
as a fence row and does not return the sentinel.  A cursor on the leading
fence row (row 0) does return the sentinel. -/
theorem fenceProcess_keeps_fence_only :
    fenceProcess ["---", "a: 1", "---"] 1 = some [""] ∧
      codeValue [""] = "" ∧
      fenceProcess ["---", "a: 1", "---"] 0 = none ∧
      fenceProcess ["---", "a: 1", "---"] 2 = some [""] :=
  ⟨rfl, rfl, rfl, rfl⟩

/-- The result of a completion request: the JavaScript `false` sentinel
(cursor on a fence row / no usable parse), the `null` sentinel bubbled out
of `completions`, or a completion result object. -/
inductive AutoResult where
  | fls
  | nul
  | res (r : CompletionResult)

/-- The request context of `completionsFromGoodParseYAML`: the cursor's
line text, the document lines, the cursor position, the schema and the
comment prefix for re-indenting multi-line insertions. -/
structure YamlContext where
  line : String
  code : List String
  row : Nat
  column : Nat
  schema : Schema
  commentPfx : String

/-- The in-progress word: empty when the line ends in a dash or colon,
else the last space-separated token. -/
def wordOf (line : String) : String :=
  if strSliceLast line = "-" ∨ strSliceLast line = ":" then ""
  else (strSplitChar line ' ').getLastD ""

/-- The `for (const parseResult of attemptParsesAtLine(...))` loop of
`completionsFromGoodParseYAML`: for each clean reparse candidate, either
the truncated line is blank — locate by indentation and return key-typed
completions — or build the annotated tree (skipping candidates that do not
span the whole text), locate the cursor structurally, extend the path for
a `key:`-with-cursor-at-end locate failure, and return the completions,
filtered to value-typed items when the line contains a colon.  A `null`
completion result is dereferenced by the source's `.completions` accesses
(TypeError) except in the no-colon structural branch, where it is returned
as-is. -/
def cfgLoop (jp : String → Option AnnValue)
    (sc : Schema → List CompletionItem) (fuel : Nat) (schema : Schema)
    (line word : String) (indent : Nat) (commentPfx : String)
    (row col : Nat) : List ReparseCandidate → Except String AutoResult
  | [] => .ok .fls
  | pr :: rest =>
    if (strTrim (line.take (line.length - pr.deletions))).length = 0 then
      match locateFromIndentation (line.take pr.deletions)
          (codeValue pr.code) row with
      | .error e => .error e
      | .ok pathOpt =>
        match completions sc fuel schema pathOpt word indent commentPfx with
        | .error e => .error e
        | .ok none => .error "TypeError: Cannot read properties of null"
        | .ok (some raw) =>
          .ok (.res ⟨raw.token,
            raw.completions.filter (fun c => c.type == "key"),
            raw.cacheable⟩)
    else
      match buildAnnotated jp fuel pr.parse with
      | .error e => .error e
      | .ok none => .error "TypeError: Cannot read properties of null"
      | .ok (some doc) =>
        if doc.endLoc ≠ (codeValue pr.code).length then
          cfgLoop jp sc fuel schema line word indent commentPfx row col rest
        else
          match locateCursor fuel doc
              (rowColToIndex pr.code row (col - pr.deletions)) with
          | .error e => .error e
          | .ok loc =>
            let path :=
              if loc.withError ∧ line.length ≤ col ∧
                  strContainsChar line ':' then
                loc.value ++ [.str ((strSplitChar (strTrim line) ':').headD "")]
              else loc.value
            match completions sc fuel schema (some path) word indent
                commentPfx with
            | .error e => .error e
            | .ok none =>
              if strContainsChar line ':' then
                .error "TypeError: Cannot read properties of null"
              else .ok .nul
            | .ok (some raw) =>
              if strContainsChar line ':' then
                .ok (.res ⟨raw.token,
                  raw.completions.filter (fun c => c.type == "value"),
                  raw.cacheable⟩)
              else .ok (.res raw)

/-- `completionsFromGoodParseYAML(context)`: process the front-matter
fences, compute the in-progress word, handle the all-blank line through
the indentation locator with key-typed completions, and otherwise run the
reparse loop. -/
def completionsFromGoodParseYAML (parse : List String → TSNode)
    (jp : String → Option AnnValue) (sc : Schema → List CompletionItem)
    (fuel : Nat) (ctx : YamlContext) : Except String AutoResult :=
  match fenceProcess ctx.code ctx.row with
  | none => .ok .fls
  | some code =>
    let line := ctx.line
    let word := wordOf line
    if (strTrim line).length = 0 then
      match locateFromIndentation line (codeValue code) ctx.row with
      | .error e => .error e
      | .ok pathOpt =>
        match completions sc fuel ctx.schema pathOpt word line.length
            ctx.commentPfx with
        | .error e => .error e
        | .ok none => .error "TypeError: Cannot read properties of null"
        | .ok (some raw) =>
          .ok (.res ⟨raw.token,
            raw.completions.filter (fun c => c.type == "key"),
            raw.cacheable⟩)
    else
      cfgLoop jp sc fuel ctx.schema line word
        ((strTrimRight line).length - (strTrim line).length) ctx.commentPfx
        ctx.row ctx.column (attemptParsesAtLine parse code ctx.row ctx.column)

theorem cfgLoop_types (jp : String → Option AnnValue)
    (sc : Schema → List CompletionItem) (fuel : Nat) (schema : Schema)
    (line word : String) (indent : Nat) (commentPfx : String)
    (row col : Nat) :
    ∀ (cands : List ReparseCandidate) (r : CompletionResult),
      cfgLoop jp sc fuel schema line word indent commentPfx row col cands =
          .ok (.res r) →
        ((∀ c ∈ r.completions, c.type = "key") ∧
          ∃ pr ∈ cands,
            (strTrim (line.take (line.length - pr.deletions))).length = 0) ∨
        (strContainsChar line ':' = true →
          ∀ c ∈ r.completions, c.type = "value") := by
  intro cands
  induction cands with
  | nil =>
    intro r h
    simp [cfgLoop] at h
  | cons pr rest ih =>
    intro r h
    simp only [cfgLoop] at h
    by_cases hb : (strTrim (line.take (line.length - pr.deletions))).length
        = 0
    · rw [if_pos hb] at h
      split at h
      · exact absurd h (by simp)
      · split at h
        · exact absurd h (by simp)
        · exact absurd h (by simp)
        · left
          refine ⟨?_, pr, by simp, hb⟩
          injection h with h1
          injection h1 with h2
          subst h2
          intro c hc
          simpa using (List.mem_filter.mp hc).2
    · rw [if_neg hb] at h
      split at h
      · exact absurd h (by simp)
      · exact absurd h (by simp)
      · split at h
        · rcases ih r h with ⟨hkey, pr2, hpr2, hblank⟩ | hval
          · exact Or.inl ⟨hkey, pr2, by simp [hpr2], hblank⟩
          · exact Or.inr hval
        · split at h
          · exact absurd h (by simp)
          · split at h
            · exact absurd h (by simp)
            · split at h
              · exact absurd h (by simp)
              · exact absurd h (by simp)
            · split at h
              · right
                intro _ c hc
                injection h with h1
                injection h1 with h2
                subst h2
                simpa using (List.mem_filter.mp hc).2
              · rename_i hco
                right
                intro hco'
                exact absurd hco' hco

/-- claim C10 (amended).  The kind filters of the YAML completion entry
point follow its branch structure: when the cursor's line is blank, every
returned item has type "key"; when the line is non-blank and contains a
colon, every returned item has type "value" *unless* the loop consumed a
reparse candidate whose deletions leave a blank truncated line — that
blank-truncation branch takes precedence and then every returned item has
type "key" (a witness candidate with blank truncated prefix exists in the
reparse sequence).  Both filters sit on top of the word-prefix filter of
`completions`. -/
theorem completionsFGPY_type_filters (parse : List String → TSNode)
    (jp : String → Option AnnValue) (sc : Schema → List CompletionItem)
    (fuel : Nat) (ctx : YamlContext) (r : CompletionResult)
    (h : completionsFromGoodParseYAML parse jp sc fuel ctx = .ok (.res r)) :
    ((strTrim ctx.line).length = 0 →
        ∀ c ∈ r.completions, c.type = "key") ∧
      ((strTrim ctx.line).length ≠ 0 →
        strContainsChar ctx.line ':' = true →
        ((∀ c ∈ r.completions, c.type = "value") ∨
          ((∀ c ∈ r.completions, c.type = "key") ∧
            ∃ code', fenceProcess ctx.code ctx.row = some code' ∧
              ∃ pr ∈ attemptParsesAtLine parse code' ctx.row ctx.column,
                (strTrim (ctx.line.take
                  (ctx.line.length - pr.deletions))).length = 0))) := by
  simp only [completionsFromGoodParseYAML] at h
  split at h
  · exact absurd h (by simp)
  · rename_i code' hf
    by_cases hb : (strTrim ctx.line).length = 0
    · rw [if_pos hb] at h
      refine ⟨?_, fun hne => absurd hb hne⟩
      intro _
      split at h
      · exact absurd h (by simp)
      · split at h
        · exact absurd h (by simp)
        · exact absurd h (by simp)
        · injection h with h1
          injection h1 with h2
          subst h2
          intro c hc
          simpa using (List.mem_filter.mp hc).2
    · rw [if_neg hb] at h
      refine ⟨fun hb' => absurd hb' hb, ?_⟩
      intro _ hcolon
      rcases cfgLoop_types jp sc fuel ctx.schema ctx.line (wordOf ctx.line)
          ((strTrimRight ctx.line).length - (strTrim ctx.line).length)
          ctx.commentPfx ctx.row ctx.column _ r h with
        ⟨hkey, pr, hpr, hblank⟩ | hval
      · exact Or.inr ⟨hkey, code', hf, pr, hpr, hblank⟩
      · exact Or.inl (hval hcolon)

/-- A parser behaviour under which only the empty text parses cleanly. -/
def c10parse : List String → TSNode :=
  fun c => if c = [""] then .mk "stream" "" 0 0 []
  else .mk "ERROR" "" 0 0 []

/-- A key-typed candidate "x". -/
def c10item : CompletionItem := ⟨"x", "key", false, leafA⟩

/-- An external `schemaCompletions` behaviour returning only `c10item`. -/
def c10sc : Schema → List CompletionItem := fun _ => [c10item]

/-- A host `JSON.parse` behaviour that always fails. -/
def c10jp : String → Option AnnValue := fun _ => none

/-- The request: document "::", cursor at row 0 column 2. -/
def c10ctx : YamlContext := ⟨"::", ["::"], 0, 2, objA, ""⟩

/-- The returned completion result of the run below. -/
def c10res : CompletionResult := ⟨"", [c10item], true⟩

/-- claim C10 (counterexample).  On the document "::" (cursor at column
2), the full parse and the one-deletion truncation fail but the empty
truncation parses cleanly, so the loop takes the blank-truncated-line
branch and returns a *key*-typed item even though the current line
contains a ':' — contradicting the claim that a ':' in the line forces
every returned item to have type "value". -/
theorem completionsFGPY_colon_key_counterexample :
    completionsFromGoodParseYAML c10parse c10jp c10sc 5 c10ctx =
        .ok (.res c10res) ∧
      strContainsChar "::" ':' = true ∧
      c10item.type ≠ "value" :=
  ⟨rfl, rfl, by decide⟩

/-- Witness for `completionsFGPY_type_filters` at the concrete run of the
"::" request. -/
theorem completionsFGPY_type_filters_witness :
    (∀ c ∈ c10res.completions, c.type = "value") ∨
      ((∀ c ∈ c10res.completions, c.type = "key") ∧
        ∃ code', fenceProcess ["::"] 0 = some code' ∧
          ∃ pr ∈ attemptParsesAtLine c10parse code' 0 2,
            (strTrim (("::" : String).take
              (("::" : String).length - pr.deletions))).length = 0) :=
  (completionsFGPY_type_filters c10parse c10jp c10sc 5 c10ctx c10res
    rfl).2 (by decide) rfl

end YamlIntel
